import Mathlib

/-!
Verification development for the jbrowse-components utility module
(deepUpdate, fillTemplate, clone, mixin in util.ts) and the jbrowse-cli
create command (create.ts).

JavaScript values are shallowly embedded as the inductive type JsVal below:
plain data objects are association lists of fields, arrays are dense lists,
functions are total maps from strings (both call sites in the source pass a
single string argument).  Prototype chains, property attributes, sparse
arrays and reference identity are outside the model; the places where a
modelled operation would depend on them return an explicit model error.
Machine numbers are modelled as Int.  Fallible code returns Except String;
a thrown JS TypeError is an error value.  Recursive functions take explicit
fuel (structural on Nat, so concrete runs evaluate definitionally) and the
exported wrappers pass a fuel bound derived from the value size; fuel
irrelevance lemmas below show the bound never matters above the size.
-/

inductive JsVal where
  | undef
  | null
  | bool (b : Bool)
  | num (n : Int)
  | str (s : String)
  | func (f : String → JsVal)
  | date (time : Int)
  | regexp (source : String)
  | arr (elems : List JsVal)
  | obj (fields : List (String × JsVal))

abbrev Fields := List (String × JsVal)

instance exceptDecEq {e a : Type} [DecidableEq e] [DecidableEq a] :
    DecidableEq (Except e a) := fun x y =>
  match x, y with
  | .error e1, .error e2 =>
    if h : e1 = e2 then .isTrue (by rw [h]) else .isFalse (by intro hc; cases hc; exact h rfl)
  | .ok v1, .ok v2 =>
    if h : v1 = v2 then .isTrue (by rw [h]) else .isFalse (by intro hc; cases hc; exact h rfl)
  | .error _, .ok _ => .isFalse (by intro hc; cases hc)
  | .ok _, .error _ => .isFalse (by intro hc; cases hc)

mutual

/-- Size of a value, used only as a fuel bound for the fueled recursions. -/
def jsSize : JsVal → Nat
  | .arr xs => elemsSize xs + 1
  | .obj fs => fieldsSize fs + 1
  | _ => 1

def elemsSize : List JsVal → Nat
  | [] => 0
  | v :: rest => jsSize v + elemsSize rest + 1

def fieldsSize : Fields → Nat
  | [] => 0
  | (_, v) :: rest => jsSize v + fieldsSize rest + 1

end

/-- Truthiness of a JS value (ToBoolean). -/
def truthy : JsVal → Bool
  | .undef => false
  | .null => false
  | .bool b => b
  | .num n => !(n == 0)
  | .str s => !(s == "")
  | _ => true

def isUndef : JsVal → Bool
  | .undef => true
  | _ => false

/-- Whether typeof yields "object": true for null, dates, regexps, arrays and
objects; functions answer "function" and primitives their own tags. -/
def typeofIsObject : JsVal → Bool
  | .null => true
  | .date _ => true
  | .regexp _ => true
  | .arr _ => true
  | .obj _ => true
  | _ => false

/-- JS strict equality as far as it is observable in a value model: primitives
compare by value; object comparisons are reference comparisons in JS, and the
only places this function is used compare a freshly built value against a
source value, which are never the same reference, so non-primitive pairs
answer false. -/
def jsStrictEq : JsVal → JsVal → Bool
  | .undef, .undef => true
  | .null, .null => true
  | .bool a, .bool b => a == b
  | .num a, .num b => a == b
  | .str a, .str b => a == b
  | _, _ => false

/-- Decimal digit character, defined by cases so its proofs need no Char
arithmetic. -/
def digitChar : Nat → Char
  | 0 => '0'
  | 1 => '1'
  | 2 => '2'
  | 3 => '3'
  | 4 => '4'
  | 5 => '5'
  | 6 => '6'
  | 7 => '7'
  | 8 => '8'
  | _ => '9'

def digitVal (c : Char) : Nat := c.toNat - 48

/-- Big-endian decimal digits of n, with fuel (fuel above n always
suffices). -/
def natKeyAux : Nat → Nat → List Char
  | 0, _ => []
  | f + 1, n => if n < 10 then [digitChar n] else natKeyAux f (n / 10) ++ [digitChar (n % 10)]

/-- Canonical decimal rendering of an array index, as JS renders property
keys.  A private renderer is used instead of toString so that injectivity is
provable. -/
def natKey (n : Nat) : String := String.mk (natKeyAux (n + 1) n)

/-- Decoder used to prove natKey injective. -/
def decodeDigits : Nat → List Char → Nat
  | acc, [] => acc
  | acc, c :: cs => decodeDigits (acc * 10 + digitVal c) cs

/-- Lookup of an own field in an association list of object fields (first
match; JS objects have distinct keys, see keysFresh). -/
def lookupField : Fields → String → Option JsVal
  | [], _ => none
  | (k, v) :: rest, key => if k == key then some v else lookupField rest key

def hasField (fs : Fields) (k : String) : Bool := (lookupField fs k).isSome

/-- Property write on object fields: overwrite in place if the key exists,
else append, as JS insertion order does. -/
def setField : Fields → String → JsVal → Fields
  | [], k, v => [(k, v)]
  | (k1, v1) :: rest, k, v =>
    if k1 == k then (k1, v) :: rest else (k1, v1) :: setField rest k v

/-- All keys distinct: the invariant every JS object satisfies. -/
def keysFresh : Fields → Bool
  | [] => true
  | (k, _) :: rest => !(hasField rest k) && keysFresh rest

/-- Index-keyed field view of a dense array, starting at index i: the own
enumerable properties of a JS array. -/
def arrFields : Nat → List JsVal → Fields
  | _, [] => []
  | i, x :: rest => (natKey i, x) :: arrFields (i + 1) rest

/-- First index j with start ≤ j < start+count whose key renders as k. -/
def findIdxFrom (k : String) : Nat → Nat → Option Nat
  | _, 0 => none
  | start, count + 1 => if natKey start == k then some start else findIdxFrom k (start + 1) count

/-- Array index denoted by key k, allowing the appending index len itself. -/
def arrIdx (k : String) (len : Nat) : Option Nat := findIdxFrom k 0 (len + 1)

/-- Own enumerable properties, as both Object.keys and for..in enumerate
them: the fields of an object, the index keys of an array, nothing for
dates, regexps and primitives. -/
def ownEnumerable : JsVal → Fields
  | .obj fs => fs
  | .arr xs => arrFields 0 xs
  | _ => []

/-- Property read a[k] with undefined for a missing key (own properties
only). -/
def getPropD : JsVal → String → JsVal
  | .obj fs, k =>
    match lookupField fs k with
    | some v => v
    | none => .undef
  | .arr xs, k =>
    match lookupField (arrFields 0 xs) k with
    | some v => v
    | none => if k == "length" then .num xs.length else .undef
  | _, _ => JsVal.undef

/-- The JS in operator: throws a TypeError on null, undefined and primitive
bases, answers membership among own properties otherwise. -/
def hasProp : JsVal → String → Except String Bool
  | .obj fs, k => .ok (hasField fs k)
  | .arr xs, k => .ok (hasField (arrFields 0 xs) k || k == "length")
  | .date _, _ => .ok false
  | .regexp _, _ => .ok false
  | _, _ => .error "TypeError: cannot use in operator"

def hasPropB (v : JsVal) (k : String) : Bool :=
  match hasProp v k with
  | .ok b => b
  | .error _ => false

/-- Property write a[k] = v.  Null and undefined bases throw; this source is
an ES module, hence strict mode, so primitive bases throw as well.  Writing
array indices past the end (sparse arrays), array length assignment and
expando properties on dates and regexps are outside the model. -/
def setProp : JsVal → String → JsVal → Except String JsVal
  | .obj fs, k, v => .ok (.obj (setField fs k v))
  | .arr xs, k, v =>
    if k == "length" then .error "model: array length assignment is not modelled"
    else
      match arrIdx k xs.length with
      | some i =>
        if i == xs.length then .ok (.arr (xs ++ [v])) else .ok (.arr (xs.set i v))
      | none => .error "model: sparse array extension is not modelled"
  | .null, _, _ => .error "TypeError: cannot set properties of null"
  | .undef, _, _ => .error "TypeError: cannot set properties of undefined"
  | _, _, _ => .error "model: property write on this base is not modelled"

/-- Body of deepUpdate (util.ts lines 20-30): folds the enumerated
properties of b into a, one property per step, threading the mutated a.
The recursive call on nested values is passed in as rec so that the fueled
driver below stays structural on its fuel.  Each step mirrors the source:
  prop in a            -> hasProp (throws on primitive a, as in JS)
  typeof x === 'object'-> typeofIsObject
  deepUpdate(a[prop], b[prop]) with the updated nested value stored back,
  which is what the in-place mutation of the aliased a[prop] amounts to in
  a value model
  a[prop] === undefined || b[prop] !== undefined -> overwrite a[prop]. -/
def deepUpdateGoF (rec : JsVal → JsVal → Except String JsVal) :
    JsVal → Fields → Except String JsVal
  | a, [] => .ok a
  | a, (k, bv) :: rest =>
    match hasProp a k with
    | .error e => .error e
    | .ok hasK =>
      if hasK && typeofIsObject bv && typeofIsObject (getPropD a k) then
        match rec (getPropD a k) bv with
        | .error e => .error e
        | .ok m =>
          match setProp a k m with
          | .error e => .error e
          | .ok a2 => deepUpdateGoF rec a2 rest
      else if isUndef (getPropD a k) || !(isUndef bv) then
        match setProp a k bv with
        | .error e => .error e
        | .ok a2 => deepUpdateGoF rec a2 rest
      else deepUpdateGoF rec a rest

/-- Fueled deepUpdate.  Object.keys(b) throws a TypeError when b is null or
undefined; on any other base it enumerates the own enumerable properties
(none for primitives, dates and regexps). -/
def deepUpdateF : Nat → JsVal → JsVal → Except String JsVal
  | 0, _, _ => .error "model: out of fuel"
  | n + 1, a, b =>
    match b with
    | .null => .error "TypeError: cannot convert null to object"
    | .undef => .error "TypeError: cannot convert undefined to object"
    | _ => deepUpdateGoF (deepUpdateF n) a (ownEnumerable b)

/-- updates a with values from b, recursively (util.ts deepUpdate).  The
fuel jsSize b always suffices: every recursive call descends into a value
of b. -/
def deepUpdate (a b : JsVal) : Except String JsVal := deepUpdateF (jsSize b) a b

/-- Comma-separated join, as Array.prototype.toString does. -/
def joinComma : List String → String
  | [] => ""
  | [s] => s
  | s :: rest => s ++ "," ++ joinComma rest

/-- Fueled ToString of a JS value, as String.replace applies it to a
replacer result: strings unchanged, numbers in decimal, arrays join their
elements with commas mapping null and undefined to the empty string,
objects render as [object Object].  Function sources are summarised by a
fixed token; no claim depends on them. -/
def jsToStringF : Nat → JsVal → String
  | 0, _ => ""
  | n + 1, v =>
    match v with
    | .undef => "undefined"
    | .null => "null"
    | .bool b => if b then "true" else "false"
    | .num i => toString i
    | .str s => s
    | .func _ => "function"
    | .date t => "Date(" ++ toString t ++ ")"
    | .regexp s => "/" ++ s ++ "/"
    | .obj _ => "[object Object]"
    | .arr xs =>
      joinComma (xs.map (fun x =>
        match x with
        | .undef => ""
        | .null => ""
        | y => jsToStringF n y))

def jsToString (v : JsVal) : String := jsToStringF (jsSize v) v

/-- Modelled from the spec: the get-value dependency, whose source is not
part of this repository, performs dotted-path lookup into the supplied
mapping; a missing segment or a non-object intermediate yields
undefined. -/
def getPath : JsVal → List String → JsVal
  | v, [] => v
  | v, seg :: rest =>
    match v with
    | .obj _ => getPath (getPropD v seg) rest
    | .arr _ => getPath (getPropD v seg) rest
    | _ => JsVal.undef

/-- Split on dots, as String.split does in JS. -/
def splitDotAux : List Char → List Char → List String
  | acc, [] => [String.mk acc.reverse]
  | acc, c :: rest =>
    if c == '.' then String.mk acc.reverse :: splitDotAux [] rest
    else splitDotAux (c :: acc) rest

def splitDot (s : String) : List String := splitDotAux [] s.data

def getValue (target : JsVal) (path : String) : JsVal :=
  getPath target (splitDot path)

/-- JS regex whitespace class: the characters matched by a backslash-s. -/
def jsSpace (c : Char) : Bool :=
  c == ' ' || c == '\t' || c == '\n' || c.toNat == 11 || c.toNat == 12 || c == '\r' ||
  c.toNat == 160 || c.toNat == 5760 || (8192 ≤ c.toNat && c.toNat ≤ 8202) ||
  c.toNat == 8232 || c.toNat == 8233 || c.toNat == 8239 || c.toNat == 8287 ||
  c.toNat == 12288 || c.toNat == 65279

/-- JS regex word class: ASCII letters, digits and underscore. -/
def wordChar (c : Char) : Bool := c.isAlphanum || c == '_'

/-- The character class inside the fillTemplate placeholder pattern. -/
def varChar (c : Char) : Bool := jsSpace c || wordChar c || c == '.'

/-- String prefix test by characters (String.startsWith of JS and Lean,
restated so concrete runs reduce definitionally). -/
def strStarts (s p : String) : Bool := p.data.isPrefixOf s.data

/-- One segment of the template under the global placeholder regex: either
a character outside any match, or the inner run of a matched
placeholder. -/
inductive Seg where
  | lit (c : Char)
  | ph (run : List Char)

/-- Global scan of the template for the placeholder pattern, exactly as the
regex engine matches it left to right: at an opening brace, a match needs a
non-empty greedy run of varChar characters followed by a closing brace (the
closing brace is not a varChar, so greediness never backtracks); on a
failed match the scan resumes one character further.  Fuel is structural;
length + 1 always suffices since every step consumes at least one
character. -/
def scanSegs : Nat → List Char → List Seg
  | 0, _ => []
  | _ + 1, [] => []
  | f + 1, c :: rest =>
    if c == '{' then
      match rest.dropWhile varChar, rest.takeWhile varChar with
      | '}' :: tail, r0 :: run => Seg.ph (r0 :: run) :: scanSegs f tail
      | _, _ => Seg.lit c :: scanSegs f rest
    else Seg.lit c :: scanSegs f rest

/-- The variable name of a placeholder run: all whitespace removed, per
varName.replace in the source. -/
def stripName (run : List Char) : String := String.mk (run.filter (fun c => !(jsSpace c)))

/-- The replacer closure of fillTemplate (util.ts lines 44-61) applied to
one match, returning the replacement text together with the list of
arguments on which fillWith.callback was invoked (the instrumentation the
callback claims are stated against).  A truthy non-function callback makes
the .call in the source throw. -/
def renderPh (fillWith : JsVal) (run : List Char) : Except String (List Char × List String) :=
  let varName := stripName run
  let fill := getValue fillWith varName
  if !(isUndef fill) then
    match fill with
    | .func g => .ok ((jsToString (g varName)).data, [])
    | _ => .ok ((jsToString fill).data, [])
  else
    let cb := getPropD fillWith "callback"
    if truthy cb then
      match cb with
      | .func f =>
        match f varName with
        | .undef => .ok ('{' :: run ++ ['}'], [varName])
        | v => .ok ((jsToString v).data, [varName])
      | _ => .error "TypeError: fillWith.callback.call is not a function"
    else .ok ('{' :: run ++ ['}'], [])

/-- String.replace with a global regex and a replacer: the segments are
rendered in order and concatenated, literal characters unchanged, each
match replaced by the replacer result; callback invocations are logged in
order. -/
def renderSegs (fillWith : JsVal) : List Seg → Except String (List Char × List String)
  | [] => .ok ([], [])
  | Seg.lit c :: rest =>
    match renderSegs fillWith rest with
    | .error e => .error e
    | .ok (out, log) => .ok (c :: out, log)
  | Seg.ph run :: rest =>
    match renderPh fillWith run with
    | .error e => .error e
    | .ok (t, l1) =>
      match renderSegs fillWith rest with
      | .error e => .error e
      | .ok (out, log) => .ok (t ++ out, l1 ++ log)

/-- replace variables in a template string with values (util.ts
fillTemplate), instrumented with the callback invocation log. -/
def fillTemplate (template : String) (fillWith : JsVal) :
    Except String (String × List String) :=
  match renderSegs fillWith (scanSegs (template.data.length + 1) template.data) with
  | .error e => .error e
  | .ok (out, log) => .ok (String.mk out, log)

/-- Element-wise clone of a dense array (util.ts lines 95-102: every index
of a dense array is present, so each element is cloned in order). -/
def cloneList (rec : JsVal → Option (Except String JsVal)) :
    List JsVal → Option (Except String (List JsVal))
  | [] => some (.ok [])
  | x :: rest =>
    match rec x with
    | none => none
    | some (.error e) => some (.error e)
    | some (.ok y) =>
      match cloneList rec rest with
      | none => none
      | some (.error e) => some (.error e)
      | some (.ok ys) => some (.ok (y :: ys))

/-- Body of mixin (util.ts lines 131-151) over the enumerated own
properties of source.  The guard in the source is
  !(name in dest) || (dest[name] !== s && (!(name in empty) || empty[name] !== s));
the empty object has no own properties in a model without prototype
chains, so name in empty is false and the guard reduces to the first two
disjuncts.  The copyFunc result layer is Option over Except: the outer
none is the fuel of the caller. -/
def mixinGo (copyFunc : JsVal → Option (Except String JsVal)) :
    JsVal → Fields → Option (Except String JsVal)
  | dest, [] => some (.ok dest)
  | dest, (name, s) :: rest =>
    match hasProp dest name with
    | .error e => some (.error e)
    | .ok hasN =>
      if !hasN || !(jsStrictEq (getPropD dest name) s) then
        match copyFunc s with
        | none => none
        | some (.error e) => some (.error e)
        | some (.ok v) =>
          match setProp dest name v with
          | .error e => some (.error e)
          | .ok d2 => mixinGo copyFunc d2 rest
      else mixinGo copyFunc dest rest

/-- Copies/adds all properties of source to dest; returns dest (util.ts
mixin).  clone always supplies copyFunc, so the defaulting branch of the
source is not exercised. -/
def mixin (dest source : JsVal) (copyFunc : JsVal → Option (Except String JsVal)) :
    Option (Except String JsVal) :=
  mixinGo copyFunc dest (ownEnumerable source)

/-- Fueled clone (util.ts lines 71-112).  none is fuel exhaustion, the
model counterpart of a call stack that never stops growing; any other
outcome is what the source returns or throws.  Branch order follows the
source: falsy, non-object and function values are returned as given; a
truthy nodeType property together with a cloneNode member takes the DOM
branch (the member is invoked with the rendered argument, functions in
this model taking a string); then dates, regexps, arrays and generic
objects.  For a generic object the source runs new src.constructor() when
src.constructor is truthy; plain data objects reach this with the
inherited Object constructor, which yields an empty object, exactly what
the model builds when no own constructor field is present.  An own truthy
constructor property would run an arbitrary user construction, which a
value model cannot represent. -/
def cloneF : Nat → JsVal → Option (Except String JsVal)
  | 0, _ => none
  | n + 1, src =>
    match src with
    | .undef => some (.ok src)
    | .null => some (.ok src)
    | .bool _ => some (.ok src)
    | .num _ => some (.ok src)
    | .str _ => some (.ok src)
    | .func _ => some (.ok src)
    | _ =>
      if truthy (getPropD src "nodeType") && hasPropB src "cloneNode" then
        match getPropD src "cloneNode" with
        | .func f => some (.ok (f "true"))
        | _ => some (.error "TypeError: src.cloneNode is not a function")
      else
        match src with
        | .date t => some (.ok (.date t))
        | .regexp s => some (.ok (.regexp s))
        | .arr xs =>
          match cloneList (cloneF n) xs with
          | none => none
          | some (.error e) => some (.error e)
          | some (.ok ys) => mixin (.arr ys) src (cloneF n)
        | _ =>
          if truthy (getPropD src "constructor") then
            some (.error "model: own constructor property is not modelled")
          else mixin (.obj []) src (cloneF n)

/-- Clones objects and all children; do not clone cyclic structures
(util.ts clone).  The fuel jsSize src always suffices on the acyclic
values of this model, see the termination theorem. -/
def clone (src : JsVal) : Except String JsVal :=
  match cloneF (jsSize src) src with
  | some r => r
  | none => .error "model: out of fuel"

/-- Fueled plain-data check: the domain on which clone is a structural
copy.  Objects need distinct keys, no DOM-node pattern (truthy nodeType
with a cloneNode member) and no own truthy constructor property; arrays
and objects recurse into their members; every other value qualifies. -/
def plainDataF : Nat → JsVal → Bool
  | 0, _ => false
  | n + 1, v =>
    match v with
    | .obj fs =>
      keysFresh fs &&
      !(truthy (getPropD v "nodeType") && hasPropB v "cloneNode") &&
      !(truthy (getPropD v "constructor")) &&
      fs.all (fun p => plainDataF n p.2)
    | .arr xs => xs.all (fun x => plainDataF n x)
    | _ => true

def plainData (v : JsVal) : Bool := plainDataF (jsSize v) v

/-- One release of the GitHub listing (create.ts interface GithubRelease);
an asset is represented by its browser_download_url. -/
structure GithubRelease where
  tag_name : String
  prerelease : Bool
  assets : List String
deriving DecidableEq, Repr

/-- The filtering step of fetchGithubVersions (create.ts lines 159-168):
keep the releases tagged for jbrowse-web, then the non-prereleases among
them; if that leaves nothing, fall back to the whole listing.  The network
fetch and its non-ok branch live in the run model below. -/
def fetchGithubVersions (jb2releases : List GithubRelease) : List GithubRelease :=
  let versions := jb2releases.filter (fun release =>
    strStarts release.tag_name "@gmod/jbrowse-web")
  let nonprereleases := versions.filter (fun release => release.prerelease == false)
  if nonprereleases.length == 0 then jb2releases else nonprereleases

/-- How a modelled CLI step ends early: this.error with an exit code
(oclif uses 2 when none is given), or a thrown JS error that no handler
maps to a code. -/
inductive CreateErr where
  | exitCode (code : Nat)
  | jsError (msg : String)
deriving DecidableEq, Repr

/-- getTagOrLatest (create.ts lines 171-183) on an already fetched
listing: with a tag, the first release whose tag_name equals it exactly;
without, the first listed release; a miss is this.error with exit 40,
otherwise the first asset of the found release is the download URL.  The
declared asset type is a one-element tuple, so the listing always has that
first asset; an empty assets list would be the TypeError case. -/
def getTagOrLatest (tag : Option String) (jb2releases : List GithubRelease) :
    Except CreateErr String :=
  let response := fetchGithubVersions jb2releases
  let versions :=
    match tag with
    | some t => response.find? (fun (version : GithubRelease) => version.tag_name == t)
    | none => response.head?
  match versions with
  | some release =>
    match release.assets.head? with
    | some u => .ok u
    | none => .error (.jsError "TypeError: cannot read browser_download_url of undefined")
  | none => .error (.exitCode 40)

/-- checkPath (create.ts lines 135-147): unreadable directory is
this.error exit 20, a directory with existing entries is this.error exit
10, an empty readable directory passes. -/
def checkPath (readdirResult : Option (List String)) : Option Nat :=
  match readdirResult with
  | none => some 20
  | some allFiles => if allFiles.length > 0 then some 10 else none

/-- A fetch response for the download URL: ok flag and content-type
header (none when the header is absent). -/
structure FetchResp where
  ok : Bool
  contentType : Option String
deriving DecidableEq, Repr

/-- The world run interacts with: whether mkdir succeeds, what readdir
returns (none is the missing/unreadable directory error), the release
listing response (none is a non-ok listing response), and the download
fetch per URL (none is a rejected fetch). -/
structure CreateEnv where
  mkdirOk : Bool
  readdirResult : Option (List String)
  releasesResp : Option (List GithubRelease)
  download : String → Option FetchResp

structure CreateFlags where
  force : Bool
  listVersions : Bool
  url : Option String
  tag : Option String

/-- How the modelled run ends: an early exit with a code, an unhandled
thrown error, or reaching the unzip-and-write pipeline for a resolved
download URL (the streamed extraction itself is not modelled; everything
the claims speak about happens before it). -/
inductive RunOutcome where
  | exited (code : Nat)
  | crashed (msg : String)
  | unzipStarted (fromUrl : String)
deriving DecidableEq, Repr

/-- The run outcome together with the observable effects before it: did
the release listing get fetched, and which download URL, if any, was
requested.  No file inside the target directory is written before the
unzip pipeline starts, so any outcome other than unzipStarted leaves the
directory contents unchanged. -/
structure RunResult where
  outcome : RunOutcome
  releaseListingFetched : Bool
  downloadRequested : Option String
deriving DecidableEq, Repr

/-- The url flag is used through JS truthiness: an empty string falls
through to tag resolution, and also disables the content-type check. -/
def urlTruthy : Option String → Bool
  | none => false
  | some u => !(u == "")

/-- The download phase of run (create.ts lines 88-133) once a location
URL is resolved: a rejected fetch is this.error with the default code 2,
a non-ok response exits 50, and — only when the url flag was truthy — a
content type that is neither application/zip nor
application/octet-stream is this.error with the default code 2;
otherwise the unzip pipeline starts. -/
def downloadStep (env : CreateEnv) (urlFlag : Option String) (listingFetched : Bool)
    (locationUrl : String) : RunResult :=
  match env.download locationUrl with
  | none => ⟨.exited 2, listingFetched, some locationUrl⟩
  | some response =>
    if !response.ok then ⟨.exited 50, listingFetched, some locationUrl⟩
    else if urlTruthy urlFlag &&
        !(response.contentType == some "application/zip") &&
        !(response.contentType == some "application/octet-stream") then
      ⟨.exited 2, listingFetched, some locationUrl⟩
    else ⟨.unzipStarted locationUrl, listingFetched, some locationUrl⟩

/-- run (create.ts lines 58-133), straight-line: listVersions prints and
exits 0 (this.error with the default code 2 if the listing fetch is not
ok); mkdir failure is this.error 2; without force, checkPath may exit 20
or 10; the download URL is the url flag if truthy, else tag resolution
through the release listing; a rejected download fetch is this.error 2, a
non-ok response exits 50; only with a truthy url flag, a content type
that is neither application/zip nor application/octet-stream is
this.error with the default code 2; otherwise the unzip pipeline
starts. -/
def run (fl : CreateFlags) (env : CreateEnv) : RunResult :=
  if fl.listVersions then
    match env.releasesResp with
    | none => ⟨.exited 2, true, none⟩
    | some _ => ⟨.exited 0, true, none⟩
  else if !env.mkdirOk then ⟨.exited 2, false, none⟩
  else
    match (if fl.force then none else checkPath env.readdirResult) with
    | some code => ⟨.exited code, false, none⟩
    | none =>
      if urlTruthy fl.url then downloadStep env fl.url false (fl.url.getD "")
      else
        match env.releasesResp with
        | none => ⟨.exited 2, true, none⟩
        | some jb2releases =>
          match getTagOrLatest fl.tag jb2releases with
          | .error (.exitCode c) => ⟨.exited c, true, none⟩
          | .error (.jsError msg) => ⟨.crashed msg, true, none⟩
          | .ok locationUrl => downloadStep env fl.url true locationUrl

/-- Precondition of the amended template claims: the callback property,
when truthy, is a function (the only kind of value whose .call in the
source does not throw). -/
def callbackSafe (fillWith : JsVal) : Prop :=
  truthy (getPropD fillWith "callback") = false ∨
  ∃ f, getPropD fillWith "callback" = .func f

/-- Replacement text a segment contributes to the output (the error case
never occurs under callbackSafe and is given the verbatim text). -/
def renderedText (fillWith : JsVal) : Seg → List Char
  | .lit c => [c]
  | .ph run =>
    match renderPh fillWith run with
    | .ok (t, _) => t
    | .error _ => '{' :: run ++ ['}']

/-- A placeholder the spec calls unresolved: the dotted-path lookup of its
stripped name yields undefined, and no fallback callback exists (a falsy
callback property) or the callback returns undefined on it. -/
def unresolvedPh (fillWith : JsVal) (run : List Char) : Prop :=
  isUndef (getValue fillWith (stripName run)) = true ∧
  (truthy (getPropD fillWith "callback") = false ∨
   ∃ f, getPropD fillWith "callback" = .func f ∧ f (stripName run) = .undef)

/-- The callback invocation log the claims predict when the callback is a
function: the stripped names of exactly the placeholders whose lookup
yields undefined, in template order. -/
def unresolvedNames (fillWith : JsVal) (segs : List Seg) : List String :=
  segs.filterMap (fun s =>
    match s with
    | Seg.ph run =>
      if isUndef (getValue fillWith (stripName run)) then some (stripName run) else none
    | Seg.lit _ => none)

/-- Per-key description of a successful top-level deepUpdate, as the spec
states it: a key absent from b keeps its a value; a key of b whose values
are object-typed on both sides holds the recursively merged value;
otherwise it holds b's value exactly when a's value is undefined (or the
key is missing from a) or b's value is defined, and keeps a's value in
the remaining case. -/
def DeepUpdateSpec (af bf rf : Fields) : Prop :=
  ∀ k : String,
    (lookupField bf k = none → lookupField rf k = lookupField af k) ∧
    (∀ bv, lookupField bf k = some bv →
      match lookupField af k with
      | some av =>
        if typeofIsObject bv && typeofIsObject av then
          ∃ m, deepUpdate av bv = .ok m ∧ lookupField rf k = some m
        else if isUndef av || !(isUndef bv) then lookupField rf k = some bv
        else lookupField rf k = some av
      | none => lookupField rf k = some bv)

theorem jsSize_pos : ∀ v : JsVal, 1 ≤ jsSize v := by
  intro v
  cases v <;> simp [jsSize]

theorem digitVal_digitChar : ∀ d : Nat, d < 10 → digitVal (digitChar d) = d := by
  intro d h
  interval_cases d <;> rfl

theorem decodeDigits_append : ∀ (l1 l2 : List Char) (acc : Nat),
    decodeDigits acc (l1 ++ l2) = decodeDigits (decodeDigits acc l1) l2 := by
  intro l1
  induction l1 with
  | nil => intro l2 acc; rfl
  | cons c cs ih =>
    intro l2 acc
    rw [List.cons_append]
    have h1 : decodeDigits acc (c :: (cs ++ l2)) = decodeDigits (acc * 10 + digitVal c) (cs ++ l2) := rfl
    have h2 : decodeDigits acc (c :: cs) = decodeDigits (acc * 10 + digitVal c) cs := rfl
    rw [h1, h2, ih]

theorem natKeyAux_decode : ∀ (f n acc : Nat), n < f →
    decodeDigits acc (natKeyAux f n) = acc * 10 ^ (natKeyAux f n).length + n := by
  intro f
  induction f with
  | zero => intro n acc h; omega
  | succ f1 ih =>
    intro n acc h
    have hone : ∀ (a : Nat) (c : Char), decodeDigits a [c] = a * 10 + digitVal c := by
      intro a c; rfl
    by_cases h10 : n < 10
    · have he : natKeyAux (f1 + 1) n = [digitChar n] := by
        rw [natKeyAux, if_pos h10]
      rw [he, hone, digitVal_digitChar n h10]
      simp [pow_one]
    · have hd : n / 10 < f1 := by
        have : n / 10 < n := Nat.div_lt_self (by omega) (by omega)
        omega
      have he : natKeyAux (f1 + 1) n = natKeyAux f1 (n / 10) ++ [digitChar (n % 10)] := by
        rw [natKeyAux, if_neg h10]
      have hmain := ih (n / 10) acc hd
      rw [he, decodeDigits_append, hmain, hone,
        digitVal_digitChar (n % 10) (Nat.mod_lt n (by omega))]
      have hlen : (natKeyAux f1 (n / 10) ++ [digitChar (n % 10)]).length =
          (natKeyAux f1 (n / 10)).length + 1 := by simp
      rw [hlen, pow_succ]
      have := Nat.div_add_mod n 10
      ring_nf
      omega

theorem natKey_inj : ∀ m n : Nat, natKey m = natKey n → m = n := by
  intro m n h
  have hl : natKeyAux (m + 1) m = natKeyAux (n + 1) n := by
    have := congrArg String.data h
    simpa [natKey] using this
  have h1 := natKeyAux_decode (m + 1) m 0 (by omega)
  have h2 := natKeyAux_decode (n + 1) n 0 (by omega)
  rw [hl] at h1
  omega

theorem natKeyAux_head : ∀ (f n : Nat), n < f →
    ∃ d t, d < 10 ∧ natKeyAux f n = digitChar d :: t := by
  intro f
  induction f with
  | zero => intro n h; omega
  | succ f1 ih =>
    intro n h
    by_cases h10 : n < 10
    · exact ⟨n, [], h10, by rw [natKeyAux, if_pos h10]⟩
    · have hd : n / 10 < f1 := by
        have : n / 10 < n := Nat.div_lt_self (by omega) (by omega)
        omega
      obtain ⟨d, t, hdlt, ht⟩ := ih (n / 10) hd
      refine ⟨d, t ++ [digitChar (n % 10)], hdlt, ?_⟩
      rw [natKeyAux, if_neg h10, ht]
      simp

theorem natKey_ne_length : ∀ n : Nat, natKey n ≠ "length" := by
  intro n h
  obtain ⟨d, t, hdlt, ht⟩ := natKeyAux_head (n + 1) n (by omega)
  have hdata : natKeyAux (n + 1) n = "length".data := congrArg String.data h
  rw [ht] at hdata
  rw [show ("length").data = ['l', 'e', 'n', 'g', 't', 'h'] from rfl] at hdata
  have hhead : digitChar d = 'l' := (List.cons.inj hdata).1
  interval_cases d <;> simp [digitChar] at hhead

theorem lookupField_setField_self : ∀ (fs : Fields) (k : String) (v : JsVal),
    lookupField (setField fs k v) k = some v := by
  intro fs k v
  induction fs with
  | nil => simp [setField, lookupField]
  | cons p rest ih =>
    obtain ⟨k1, v1⟩ := p
    by_cases h : k1 = k
    · subst h
      simp [setField, lookupField]
    · have hb : (k1 == k) = false := by simp [h]
      simp [setField, lookupField, hb, ih]

theorem lookupField_setField_other : ∀ (fs : Fields) (k key : String) (v : JsVal),
    key ≠ k → lookupField (setField fs k v) key = lookupField fs key := by
  intro fs k key v hne
  induction fs with
  | nil =>
    have hb : (k == key) = false := by simp; intro hc; exact hne hc.symm
    simp [setField, lookupField, hb]
  | cons p rest ih =>
    obtain ⟨k1, v1⟩ := p
    by_cases h : k1 = k
    · subst h
      have hb : (k1 == key) = false := by simp; intro hc; exact hne hc.symm
      simp [setField, lookupField, hb]
    · have hb : (k1 == k) = false := by simp [h]
      by_cases h2 : k1 = key
      · subst h2
        simp [setField, lookupField, hb]
      · have hb2 : (k1 == key) = false := by simp [h2]
        simp [setField, lookupField, hb, hb2, ih]

theorem hasField_setField : ∀ (fs : Fields) (k key : String) (v : JsVal),
    hasField (setField fs k v) key = (key == k || hasField fs key) := by
  intro fs k key v
  by_cases h : key = k
  · subst h
    simp [hasField, lookupField_setField_self]
  · have hb : (key == k) = false := by simp [h]
    simp [hasField, hb, lookupField_setField_other fs k key v h]

theorem keysFresh_setField : ∀ (fs : Fields) (k : String) (v : JsVal),
    keysFresh fs = true → keysFresh (setField fs k v) = true := by
  intro fs k v
  induction fs with
  | nil => intro _; simp [setField, keysFresh, hasField, lookupField]
  | cons p rest ih =>
    obtain ⟨k1, v1⟩ := p
    intro hf
    simp only [keysFresh, Bool.and_eq_true, Bool.not_eq_true'] at hf
    by_cases h : k1 = k
    · subst h
      simp only [setField, beq_self_eq_true, if_true, keysFresh, Bool.and_eq_true,
        Bool.not_eq_true']
      exact hf
    · have hb : (k1 == k) = false := by simp [h]
      simp only [setField, hb, if_false, keysFresh, Bool.and_eq_true, Bool.not_eq_true']
      constructor
      · rw [hasField_setField]
        have : (k1 == k) = false := hb
        simp [this, hf.1]
      · exact ih hf.2

theorem setField_of_not_has : ∀ (fs : Fields) (k : String) (v : JsVal),
    hasField fs k = false → setField fs k v = fs ++ [(k, v)] := by
  intro fs k v
  induction fs with
  | nil => intro _; rfl
  | cons p rest ih =>
    obtain ⟨k1, v1⟩ := p
    intro hf
    by_cases h : k1 = k
    · subst h
      simp [hasField, lookupField] at hf
    · have hb : (k1 == k) = false := by simp [h]
      have hrest : hasField rest k = false := by
        simp only [hasField, lookupField, hb, if_false] at hf
        exact hf
      simp only [setField, hb, Bool.false_eq_true, if_false, List.cons_append,
        List.cons.injEq, true_and]
      exact ih hrest

theorem lookupField_mem : ∀ (fs : Fields) (k : String) (v : JsVal),
    lookupField fs k = some v → (k, v) ∈ fs := by
  intro fs k v
  induction fs with
  | nil => intro h; simp [lookupField] at h
  | cons p rest ih =>
    obtain ⟨k1, v1⟩ := p
    intro h
    by_cases hk : k1 = k
    · subst hk
      simp only [lookupField, beq_self_eq_true, if_true, Option.some.injEq] at h
      subst h
      exact List.mem_cons_self _ _
    · have hb : (k1 == k) = false := by simp [hk]
      rw [lookupField, hb] at h
      simp only [Bool.false_eq_true, if_false] at h
      exact List.mem_cons_of_mem _ (ih h)

theorem fieldsSize_mem : ∀ (fs : Fields) (p : String × JsVal),
    p ∈ fs → jsSize p.2 ≤ fieldsSize fs := by
  intro fs
  induction fs with
  | nil => intro p h; simp at h
  | cons q rest ih =>
    intro p h
    obtain ⟨k1, v1⟩ := q
    rcases List.mem_cons.mp h with h1 | h2
    · subst h1
      simp only [fieldsSize]
      omega
    · have := ih p h2
      simp only [fieldsSize]
      omega

theorem elemsSize_mem : ∀ (xs : List JsVal) (x : JsVal),
    x ∈ xs → jsSize x ≤ elemsSize xs := by
  intro xs
  induction xs with
  | nil => intro x h; simp at h
  | cons y rest ih =>
    intro x h
    rcases List.mem_cons.mp h with h1 | h2
    · subst h1
      simp only [elemsSize]
      omega
    · have := ih x h2
      simp only [elemsSize]
      omega

theorem mem_arrFields : ∀ (xs : List JsVal) (off : Nat) (p : String × JsVal),
    p ∈ arrFields off xs → ∃ j, p.1 = natKey (off + j) ∧ xs.get? j = some p.2 := by
  intro xs
  induction xs with
  | nil => intro off p h; simp [arrFields] at h
  | cons x rest ih =>
    intro off p h
    rw [arrFields] at h
    rcases List.mem_cons.mp h with h1 | h2
    · exact ⟨0, by subst h1; simp, by subst h1; rfl⟩
    · obtain ⟨j, hj1, hj2⟩ := ih (off + 1) p h2
      refine ⟨j + 1, ?_, by simpa using hj2⟩
      rw [hj1]
      congr 1
      omega

theorem ownEnumerable_size : ∀ (b : JsVal) (p : String × JsVal),
    p ∈ ownEnumerable b → jsSize p.2 + 1 ≤ jsSize b := by
  intro b p h
  cases b with
  | arr xs =>
    obtain ⟨j, _, hj⟩ := mem_arrFields xs 0 p (by simpa [ownEnumerable] using h)
    have hm : p.2 ∈ xs := List.get?_mem hj
    have := elemsSize_mem xs p.2 hm
    simp only [jsSize]
    omega
  | obj fs =>
    have := fieldsSize_mem fs p (by simpa [ownEnumerable] using h)
    simp only [jsSize]
    omega
  | undef => simp [ownEnumerable] at h
  | null => simp [ownEnumerable] at h
  | bool b => simp [ownEnumerable] at h
  | num n => simp [ownEnumerable] at h
  | str s => simp [ownEnumerable] at h
  | func f => simp [ownEnumerable] at h
  | date t => simp [ownEnumerable] at h
  | regexp s => simp [ownEnumerable] at h

theorem deepUpdateGoF_congr : ∀ (l : Fields) (a : JsVal)
    (rec1 rec2 : JsVal → JsVal → Except String JsVal),
    (∀ p ∈ l, ∀ x, rec1 x p.2 = rec2 x p.2) →
    deepUpdateGoF rec1 a l = deepUpdateGoF rec2 a l := by
  intro l
  induction l with
  | nil => intro a rec1 rec2 _; rfl
  | cons p rest ih =>
    intro a rec1 rec2 hrec
    obtain ⟨k, bv⟩ := p
    have hhead : ∀ x, rec1 x bv = rec2 x bv :=
      fun x => hrec (k, bv) (List.mem_cons_self _ _) x
    have htail : ∀ q ∈ rest, ∀ x, rec1 x q.2 = rec2 x q.2 :=
      fun q hq x => hrec q (List.mem_cons_of_mem _ hq) x
    simp only [deepUpdateGoF]
    cases hasProp a k with
    | error e => rfl
    | ok hasK =>
      dsimp only
      by_cases hc : (hasK && typeofIsObject bv && typeofIsObject (getPropD a k)) = true
      · rw [if_pos hc, if_pos hc, hhead (getPropD a k)]
        cases hr2 : rec2 (getPropD a k) bv with
        | error e => rfl
        | ok m =>
          dsimp only
          cases hsp : setProp a k m with
          | error e => rfl
          | ok a2 =>
            dsimp only
            exact ih a2 rec1 rec2 htail
      · rw [if_neg hc, if_neg hc]
        by_cases hc2 : (isUndef (getPropD a k) || !(isUndef bv)) = true
        · rw [if_pos hc2, if_pos hc2]
          cases hsp : setProp a k bv with
          | error e => rfl
          | ok a2 =>
            dsimp only
            exact ih a2 rec1 rec2 htail
        · rw [if_neg hc2, if_neg hc2]
          exact ih a rec1 rec2 htail

theorem deepUpdateF_irrel : ∀ (n m : Nat) (a b : JsVal),
    jsSize b ≤ n → jsSize b ≤ m → deepUpdateF n a b = deepUpdateF m a b := by
  intro n
  induction n with
  | zero => intro m a b hn _; have := jsSize_pos b; omega
  | succ n1 ih =>
    intro m a b hn hm
    cases m with
    | zero => have := jsSize_pos b; omega
    | succ m1 =>
      have hcongr : ∀ p ∈ ownEnumerable b, ∀ x, deepUpdateF n1 x p.2 = deepUpdateF m1 x p.2 := by
        intro p hp x
        have hsz := ownEnumerable_size b p hp
        exact ih m1 x p.2 (by omega) (by omega)
      cases b with
      | undef => rfl
      | null => rfl
      | bool v => rfl
      | num v => rfl
      | str v => rfl
      | func v => rfl
      | date v => rfl
      | regexp v => rfl
      | arr xs =>
        simp only [deepUpdateF]
        exact deepUpdateGoF_congr _ a _ _ hcongr
      | obj fs =>
        simp only [deepUpdateF]
        exact deepUpdateGoF_congr _ a _ _ hcongr

theorem deepUpdateGoF_spec : ∀ (l : Fields) (af : Fields) (r : JsVal)
    (rec : JsVal → JsVal → Except String JsVal),
    keysFresh af = true → keysFresh l = true →
    deepUpdateGoF rec (.obj af) l = .ok r →
    ∃ rf, r = .obj rf ∧ keysFresh rf = true ∧
      (∀ k, lookupField l k = none → lookupField rf k = lookupField af k) ∧
      (∀ k bv, lookupField l k = some bv →
        match lookupField af k with
        | some av =>
          if typeofIsObject bv && typeofIsObject av then
            ∃ m, rec av bv = .ok m ∧ lookupField rf k = some m
          else if isUndef av || !(isUndef bv) then lookupField rf k = some bv
          else lookupField rf k = some av
        | none => lookupField rf k = some bv) := by
  intro l
  induction l with
  | nil =>
    intro af r rec haf _ h
    have hr : r = JsVal.obj af := (Except.ok.inj h).symm
    refine ⟨af, hr, haf, fun k _ => rfl, fun k bv hbv => ?_⟩
    simp [lookupField] at hbv
  | cons p rest ih =>
    intro af r rec haf hl h
    obtain ⟨k0, bv0⟩ := p
    have hfr : hasField rest k0 = false := by
      cases hx : hasField rest k0 with
      | false => rfl
      | true => simp only [keysFresh, hx] at hl; simp at hl
    have hrest : keysFresh rest = true := by
      simp only [keysFresh, Bool.and_eq_true] at hl
      exact hl.2
    have hrestnone : lookupField rest k0 = none := by
      cases hx : lookupField rest k0 with
      | none => rfl
      | some v => simp [hasField, hx] at hfr
    have hconsnone : ∀ k, lookupField ((k0, bv0) :: rest) k = none →
        (k0 = k → False) ∧ lookupField rest k = none := by
      intro k hk
      by_cases he : k0 = k
      · subst he; simp [lookupField] at hk
      · have hb : (k0 == k) = false := by simp [he]
        rw [lookupField, hb] at hk
        simp only [Bool.false_eq_true, if_false] at hk
        exact ⟨fun hc => he hc, hk⟩
    have hconssome : ∀ k bv, lookupField ((k0, bv0) :: rest) k = some bv →
        (k0 = k ∧ bv = bv0) ∨ ((k0 = k → False) ∧ lookupField rest k = some bv) := by
      intro k bv hk
      by_cases he : k0 = k
      · subst he
        simp only [lookupField, beq_self_eq_true, if_true, Option.some.injEq] at hk
        exact Or.inl ⟨rfl, hk.symm⟩
      · have hb : (k0 == k) = false := by simp [he]
        rw [lookupField, hb] at hk
        simp only [Bool.false_eq_true, if_false] at hk
        exact Or.inr ⟨fun hc => he hc, hk⟩
    simp only [deepUpdateGoF, hasProp] at h
    cases hba : lookupField af k0 with
    | some av =>
      have hhf : hasField af k0 = true := by simp [hasField, hba]
      have hgp : getPropD (JsVal.obj af) k0 = av := by simp [getPropD, hba]
      rw [hhf, hgp, Bool.true_and] at h
      by_cases ht : (typeofIsObject bv0 && typeofIsObject av) = true
      · rw [if_pos ht] at h
        cases hm : rec av bv0 with
        | error e =>
          rw [hm] at h
          dsimp only at h
          exact Except.noConfusion h
        | ok m =>
          rw [hm] at h
          dsimp only [setProp] at h
          obtain ⟨rf, hr, hfr2, hA, hB⟩ :=
            ih (setField af k0 m) r rec (keysFresh_setField af k0 m haf) hrest h
          refine ⟨rf, hr, hfr2, ?_, ?_⟩
          · intro k hk
            obtain ⟨hne, hrnone⟩ := hconsnone k hk
            rw [hA k hrnone]
            exact lookupField_setField_other af k0 k m (fun hc => hne hc.symm)
          · intro k bv hkbv
            rcases hconssome k bv hkbv with ⟨he, hbv⟩ | ⟨hne, hkr⟩
            · subst he
              subst hbv
              rw [hba]
              dsimp only
              rw [if_pos ht]
              exact ⟨m, hm, by rw [hA k0 hrestnone, lookupField_setField_self]⟩
            · have hother := lookupField_setField_other af k0 k m (fun hc => hne hc.symm)
              have hres := hB k bv hkr
              rw [hother] at hres
              exact hres
      · rw [if_neg ht] at h
        by_cases hc2 : (isUndef av || !(isUndef bv0)) = true
        · rw [if_pos hc2] at h
          dsimp only [setProp] at h
          obtain ⟨rf, hr, hfr2, hA, hB⟩ :=
            ih (setField af k0 bv0) r rec (keysFresh_setField af k0 bv0 haf) hrest h
          refine ⟨rf, hr, hfr2, ?_, ?_⟩
          · intro k hk
            obtain ⟨hne, hrnone⟩ := hconsnone k hk
            rw [hA k hrnone]
            exact lookupField_setField_other af k0 k bv0 (fun hc => hne hc.symm)
          · intro k bv hkbv
            rcases hconssome k bv hkbv with ⟨he, hbv⟩ | ⟨hne, hkr⟩
            · subst he
              subst hbv
              rw [hba]
              dsimp only
              rw [if_neg ht, if_pos hc2]
              rw [hA k0 hrestnone, lookupField_setField_self]
            · have hother := lookupField_setField_other af k0 k bv0 (fun hc => hne hc.symm)
              have hres := hB k bv hkr
              rw [hother] at hres
              exact hres
        · rw [if_neg hc2] at h
          obtain ⟨rf, hr, hfr2, hA, hB⟩ := ih af r rec haf hrest h
          refine ⟨rf, hr, hfr2, ?_, ?_⟩
          · intro k hk
            obtain ⟨hne, hrnone⟩ := hconsnone k hk
            exact hA k hrnone
          · intro k bv hkbv
            rcases hconssome k bv hkbv with ⟨he, hbv⟩ | ⟨hne, hkr⟩
            · subst he
              subst hbv
              rw [hba]
              dsimp only
              rw [if_neg ht, if_neg hc2]
              rw [hA k0 hrestnone, hba]
            · exact hB k bv hkr
    | none =>
      have hhf : hasField af k0 = false := by simp [hasField, hba]
      have hgp : getPropD (JsVal.obj af) k0 = JsVal.undef := by simp [getPropD, hba]
      rw [hhf, hgp] at h
      simp only [Bool.false_and, Bool.false_eq_true, if_false] at h
      have hcc : (isUndef JsVal.undef || !(isUndef bv0)) = true := by simp [isUndef]
      rw [if_pos hcc] at h
      dsimp only [setProp] at h
      obtain ⟨rf, hr, hfr2, hA, hB⟩ :=
        ih (setField af k0 bv0) r rec (keysFresh_setField af k0 bv0 haf) hrest h
      refine ⟨rf, hr, hfr2, ?_, ?_⟩
      · intro k hk
        obtain ⟨hne, hrnone⟩ := hconsnone k hk
        rw [hA k hrnone]
        exact lookupField_setField_other af k0 k bv0 (fun hc => hne hc.symm)
      · intro k bv hkbv
        rcases hconssome k bv hkbv with ⟨he, hbv⟩ | ⟨hne, hkr⟩
        · subst he
          subst hbv
          rw [hba]
          dsimp only
          rw [hA k0 hrestnone, lookupField_setField_self]
        · have hother := lookupField_setField_other af k0 k bv0 (fun hc => hne hc.symm)
          have hres := hB k bv hkr
          rw [hother] at hres
          exact hres

/-- C1: for every pair of objects a and b (with the distinct-key invariant
every JS object has), a successful deepUpdate(a, b) returns an object
that, for each key k of b, holds the recursively merged value of a[k] and
b[k] when k is present in a and both values are object-typed, otherwise
holds b[k] exactly when a[k] is undefined (or missing) or b[k] is not
undefined and keeps a[k] in the remaining case; keys of a absent from b
are left unchanged.  Runs that throw (see the claim on totality) return no
object and are outside this description. -/
theorem claimC1_deepUpdate_overlays (af bf : Fields) (r : JsVal)
    (ha : keysFresh af = true) (hb : keysFresh bf = true)
    (h : deepUpdate (.obj af) (.obj bf) = .ok r) :
    ∃ rf, r = .obj rf ∧ DeepUpdateSpec af bf rf := by
  have hsz : jsSize (JsVal.obj bf) = fieldsSize bf + 1 := by simp [jsSize]
  have hgo : deepUpdateGoF (deepUpdateF (fieldsSize bf)) (.obj af) bf = .ok r := by
    rw [deepUpdate, hsz] at h
    simpa only [deepUpdateF, ownEnumerable] using h
  obtain ⟨rf, hr, _, hA, hB⟩ := deepUpdateGoF_spec bf af r _ ha hb hgo
  refine ⟨rf, hr, fun k => ⟨hA k, fun bv hbv => ?_⟩⟩
  have hres := hB k bv hbv
  cases hba : lookupField af k with
  | none =>
    rw [hba] at hres
    exact hres
  | some av =>
    rw [hba] at hres
    dsimp only at hres ⊢
    by_cases ht : (typeofIsObject bv && typeofIsObject av) = true
    · simp only [ht, if_true] at hres ⊢
      obtain ⟨m, hm, hlk⟩ := hres
      refine ⟨m, ?_, hlk⟩
      have hszbv : jsSize bv ≤ fieldsSize bf :=
        fieldsSize_mem bf (k, bv) (lookupField_mem bf k bv hbv)
      rw [deepUpdate, deepUpdateF_irrel (jsSize bv) (fieldsSize bf) av bv (le_refl _) hszbv]
      exact hm
    · have htf : (typeofIsObject bv && typeofIsObject av) = false := by
        cases hx : (typeofIsObject bv && typeofIsObject av) with
        | false => rfl
        | true => exact absurd hx ht
      simp only [htf, Bool.false_eq_true, if_false] at hres ⊢
      exact hres

theorem claimC1_witness :
    keysFresh [("a", JsVal.num 1), ("n", JsVal.obj [("x", JsVal.num 1)])] = true ∧
    keysFresh [("b", JsVal.num 2), ("n", JsVal.obj [("y", JsVal.num 3)])] = true ∧
    ∃ rf, (JsVal.obj [("a", JsVal.num 1),
        ("n", JsVal.obj [("x", JsVal.num 1), ("y", JsVal.num 3)]),
        ("b", JsVal.num 2)] : JsVal) = .obj rf ∧
      DeepUpdateSpec [("a", JsVal.num 1), ("n", JsVal.obj [("x", JsVal.num 1)])]
        [("b", JsVal.num 2), ("n", JsVal.obj [("y", JsVal.num 3)])] rf := by
  have hrun : deepUpdate (.obj [("a", JsVal.num 1), ("n", JsVal.obj [("x", JsVal.num 1)])])
      (.obj [("b", JsVal.num 2), ("n", JsVal.obj [("y", JsVal.num 3)])]) =
      .ok (.obj [("a", JsVal.num 1),
        ("n", JsVal.obj [("x", JsVal.num 1), ("y", JsVal.num 3)]),
        ("b", JsVal.num 2)]) := by
    rw [deepUpdate, deepUpdateF_irrel _ 9 _ _ (le_refl _) (by decide)]
    rfl
  exact ⟨rfl, rfl, claimC1_deepUpdate_overlays _ _ _ rfl rfl hrun⟩

/-- C9: deepUpdate is not total: with b[k] null (which is object-typed in
JS) and a[k] a non-null object, the guard takes the recursive branch and
the recursive call enumerates null, so Object.keys throws a TypeError;
the embedding surfaces this as an error value rather than a result. -/
theorem claimC9_deepUpdate_throws_on_null :
    deepUpdate (.obj [("k", .obj [("x", .num 1)])]) (.obj [("k", .null)]) =
      .error "TypeError: cannot convert null to object" := by
  rw [deepUpdate, deepUpdateF_irrel _ 5 _ _ (le_refl _) (by decide)]
  rfl

theorem renderPh_safe : ∀ (fw : JsVal) (run : List Char), callbackSafe fw →
    ∃ t log, renderPh fw run = .ok (t, log) := by
  intro fw run hcb
  unfold renderPh
  cases hu : isUndef (getValue fw (stripName run)) with
  | false =>
    simp only [hu, Bool.not_false, if_true]
    cases getValue fw (stripName run) <;> exact ⟨_, _, rfl⟩
  | true =>
    simp only [hu, Bool.not_true, Bool.false_eq_true, if_false]
    rcases hcb with hf | ⟨f, hf⟩
    · simp only [hf, Bool.false_eq_true, if_false]
      exact ⟨_, _, rfl⟩
    · rw [hf]
      simp only [truthy, if_true]
      cases f (stripName run) <;> exact ⟨_, _, rfl⟩

theorem renderedText_ph : ∀ (fw : JsVal) (run t : List Char) (log : List String),
    renderPh fw run = .ok (t, log) → renderedText fw (Seg.ph run) = t := by
  intro fw run t log h
  simp only [renderedText]
  rw [h]

theorem renderSegs_safe : ∀ (fw : JsVal), callbackSafe fw → ∀ segs : List Seg,
    ∃ log, renderSegs fw segs = .ok ((segs.map (renderedText fw)).flatten, log) := by
  intro fw hcb segs
  induction segs with
  | nil => exact ⟨[], rfl⟩
  | cons s rest ih =>
    obtain ⟨log, hlog⟩ := ih
    cases s with
    | lit c =>
      refine ⟨log, ?_⟩
      simp only [renderSegs, hlog, List.map_cons, List.flatten_cons, renderedText,
        List.singleton_append]
    | ph run =>
      obtain ⟨t, l1, hph⟩ := renderPh_safe fw run hcb
      refine ⟨l1 ++ log, ?_⟩
      simp only [renderSegs, hph, hlog, List.map_cons, List.flatten_cons,
        renderedText_ph fw run t l1 hph]

theorem renderPh_unresolved : ∀ (fw : JsVal) (run : List Char),
    unresolvedPh fw run → ∃ log, renderPh fw run = .ok ('{' :: run ++ ['}'], log) := by
  intro fw run hun
  obtain ⟨hu, hcb2⟩ := hun
  unfold renderPh
  simp only [hu, Bool.not_true, Bool.false_eq_true, if_false]
  rcases hcb2 with hf | ⟨f, hf, hundef⟩
  · simp only [hf, Bool.false_eq_true, if_false]
    exact ⟨_, rfl⟩
  · rw [hf]
    simp only [truthy, if_true, hundef]
    exact ⟨_, rfl⟩

/-- C2 (amended): provided the fill mapping's callback property, when
truthy, is a function — which every intended fill mapping satisfies —
fillTemplate never throws: it returns the concatenation of the rendered
segments, every placeholder that the spec calls unresolved (lookup
undefined, and no callback or a callback answering undefined) contributes
its original text verbatim, character for character, and every character
outside a placeholder is copied unchanged.  Without that proviso the
claim fails, see the counterexample. -/
theorem claimC2_fillTemplate_unresolved_verbatim :
    ∀ (template : String) (fw : JsVal), callbackSafe fw →
    ∃ out log, fillTemplate template fw = .ok (out, log) ∧
      out.data = ((scanSegs (template.data.length + 1) template.data).map
        (renderedText fw)).flatten ∧
      (∀ run, Seg.ph run ∈ scanSegs (template.data.length + 1) template.data →
        unresolvedPh fw run → renderedText fw (Seg.ph run) = '{' :: run ++ ['}']) ∧
      (∀ c, renderedText fw (Seg.lit c) = [c]) := by
  intro template fw hcb
  obtain ⟨log, hlog⟩ := renderSegs_safe fw hcb (scanSegs (template.data.length + 1) template.data)
  refine ⟨_, log, ?_, rfl, ?_, fun c => rfl⟩
  · unfold fillTemplate
    rw [hlog]
  · intro run _ hun
    obtain ⟨l2, hph⟩ := renderPh_unresolved fw run hun
    exact renderedText_ph fw run _ l2 hph

theorem claimC2_witness :
    callbackSafe (.obj [("x", .str "Y")]) ∧
    ∃ out log, fillTemplate "a\x7bq\x7db" (.obj [("x", .str "Y")]) = .ok (out, log) := by
  have hcb : callbackSafe (.obj [("x", .str "Y")]) := Or.inl rfl
  obtain ⟨out, log, h1, _⟩ :=
    claimC2_fillTemplate_unresolved_verbatim "a\x7bq\x7db" (.obj [("x", .str "Y")]) hcb
  exact ⟨hcb, out, log, h1⟩

/-- C2 counterexample: with fill mapping having the truthy non-function
callback property 1, the unresolved placeholder makes the source call
fillWith.callback.call, which throws, so fillTemplate does not leave the
placeholder untouched and does fail; the claim as stated (never throws on
an unresolved placeholder, for every fill mapping) is false. -/
theorem claimC2_counterexample :
    fillTemplate "\x7bx\x7d" (.obj [("callback", .num 1)]) =
      .error "TypeError: fillWith.callback.call is not a function" := by decide

theorem renderPh_funcLog : ∀ (fw : JsVal) (run : List Char) (f : String → JsVal),
    getPropD fw "callback" = .func f →
    (isUndef (getValue fw (stripName run)) = false → ∃ t, renderPh fw run = .ok (t, [])) ∧
    (isUndef (getValue fw (stripName run)) = true →
      ∃ t, renderPh fw run = .ok (t, [stripName run]) ∧
        (f (stripName run) ≠ .undef → t = (jsToString (f (stripName run))).data)) := by
  intro fw run f hcb
  constructor
  · intro hu
    unfold renderPh
    simp only [hu, Bool.not_false, if_true]
    cases getValue fw (stripName run) <;> exact ⟨_, rfl⟩
  · intro hu
    unfold renderPh
    simp only [hu, Bool.not_true, Bool.false_eq_true, if_false]
    rw [hcb]
    simp only [truthy, if_true]
    cases hv : f (stripName run)
    case undef => exact ⟨_, rfl, fun hne => absurd rfl hne⟩
    all_goals exact ⟨_, rfl, fun _ => rfl⟩

theorem renderSegs_funcLog : ∀ (fw : JsVal) (f : String → JsVal),
    getPropD fw "callback" = .func f → ∀ segs : List Seg,
    ∃ out, renderSegs fw segs = .ok (out, unresolvedNames fw segs) := by
  intro fw f hcb segs
  induction segs with
  | nil => exact ⟨[], rfl⟩
  | cons s rest ih =>
    obtain ⟨out, hout⟩ := ih
    cases s with
    | lit c =>
      refine ⟨c :: out, ?_⟩
      simp only [renderSegs, hout, unresolvedNames, List.filterMap_cons]
    | ph run =>
      have hlem := renderPh_funcLog fw run f hcb
      cases hu : isUndef (getValue fw (stripName run)) with
      | false =>
        obtain ⟨t, hph⟩ := hlem.1 hu
        refine ⟨t ++ out, ?_⟩
        simp only [renderSegs, hph, hout, unresolvedNames, List.filterMap_cons]
        simp [hu]
      | true =>
        obtain ⟨t, hph, _⟩ := hlem.2 hu
        refine ⟨t ++ out, ?_⟩
        simp only [renderSegs, hph, hout, unresolvedNames, List.filterMap_cons]
        simp [hu]

/-- C3: when the fill mapping's callback property is a function, a run of
fillTemplate invokes it exactly once, in template order, for each
placeholder whose dotted-path lookup yields undefined, passing the
whitespace-stripped variable name (the invocation log equals the list of
those names), never invokes it for a placeholder whose lookup succeeds,
and substitutes the stringified callback result whenever that result is
not undefined. -/
theorem claimC3_fillTemplate_callback :
    ∀ (template : String) (fw : JsVal) (f : String → JsVal),
    getPropD fw "callback" = .func f →
    ∃ out, fillTemplate template fw =
        .ok (out, unresolvedNames fw (scanSegs (template.data.length + 1) template.data)) ∧
      (∀ run, Seg.ph run ∈ scanSegs (template.data.length + 1) template.data →
        isUndef (getValue fw (stripName run)) = true →
        f (stripName run) ≠ .undef →
        renderedText fw (Seg.ph run) = (jsToString (f (stripName run))).data) := by
  intro template fw f hcb
  obtain ⟨out, hout⟩ :=
    renderSegs_funcLog fw f hcb (scanSegs (template.data.length + 1) template.data)
  refine ⟨String.mk out, ?_, ?_⟩
  · unfold fillTemplate
    rw [hout]
  · intro run _ hu hne
    obtain ⟨t, hph, hsub⟩ := (renderPh_funcLog fw run f hcb).2 hu
    rw [renderedText_ph fw run t _ hph]
    exact hsub hne

theorem claimC3_witness :
    getPropD (.obj [("callback", .func (fun _ => .str "Z"))]) "callback" =
      .func (fun _ => .str "Z") ∧
    ∃ out, fillTemplate "\x7bx\x7d" (.obj [("callback", .func (fun _ => .str "Z"))]) =
      .ok (out, unresolvedNames (.obj [("callback", .func (fun _ => .str "Z"))])
        (scanSegs ("\x7bx\x7d".data.length + 1) "\x7bx\x7d".data)) := by
  obtain ⟨out, h1, _⟩ := claimC3_fillTemplate_callback "\x7bx\x7d"
    (.obj [("callback", .func (fun _ => .str "Z"))]) (fun _ => .str "Z") rfl
  exact ⟨rfl, out, h1⟩

theorem mem_hasField : ∀ (fs : Fields) (p : String × JsVal), p ∈ fs → hasField fs p.1 = true := by
  intro fs
  induction fs with
  | nil => intro p h; simp at h
  | cons q rest ih =>
    intro p h
    obtain ⟨k1, v1⟩ := q
    rcases List.mem_cons.mp h with h1 | h2
    · subst h1
      simp [hasField, lookupField]
    · by_cases hk : k1 = p.1
      · simp [hasField, lookupField, hk]
      · have hb : (k1 == p.1) = false := by simp [hk]
        have := ih p h2
        simp only [hasField, lookupField, hb, Bool.false_eq_true, if_false]
        exact this

theorem hasField_append : ∀ (l1 l2 : Fields) (k : String),
    hasField (l1 ++ l2) k = (hasField l1 k || hasField l2 k) := by
  intro l1 l2 k
  induction l1 with
  | nil => simp [hasField, lookupField]
  | cons p rest ih =>
    obtain ⟨k1, v1⟩ := p
    by_cases hk : k1 = k
    · simp [hasField, lookupField, hk]
    · have hb : (k1 == k) = false := by simp [hk]
      simp only [List.cons_append, hasField, lookupField, hb, Bool.false_eq_true, if_false]
      exact ih

theorem set_get_self : ∀ (xs : List JsVal) (i : Nat) (x : JsVal),
    xs.get? i = some x → xs.set i x = xs := by
  intro xs
  induction xs with
  | nil => intro i x h; simp at h
  | cons y rest ih =>
    intro i x h
    cases i with
    | zero =>
      simp only [List.get?_cons_zero, Option.some.injEq] at h
      rw [← h]
      rfl
    | succ j =>
      simp only [List.get?_cons_succ] at h
      simp [List.set, ih j x h]

theorem lookupField_arrFields : ∀ (xs : List JsVal) (off i : Nat),
    lookupField (arrFields off xs) (natKey (off + i)) = xs.get? i := by
  intro xs
  induction xs with
  | nil => intro off i; cases i <;> rfl
  | cons x rest ih =>
    intro off i
    cases i with
    | zero =>
      simp only [arrFields, lookupField, Nat.add_zero, beq_self_eq_true, if_true]
      rfl
    | succ j =>
      have hne : (natKey off == natKey (off + (j + 1))) = false := by
        have : natKey off ≠ natKey (off + (j + 1)) := by
          intro hc
          have := natKey_inj off (off + (j + 1)) hc
          omega
        simp [this]
      simp only [arrFields, lookupField, hne, Bool.false_eq_true, if_false]
      have := ih (off + 1) j
      rw [show off + 1 + j = off + (j + 1) by omega] at this
      rw [this]
      rfl

theorem findIdxFrom_natKey : ∀ (count start i : Nat), i < count →
    findIdxFrom (natKey (start + i)) start count = some (start + i) := by
  intro count
  induction count with
  | zero => intro start i h; omega
  | succ c ih =>
    intro start i h
    cases i with
    | zero =>
      simp only [findIdxFrom, Nat.add_zero, beq_self_eq_true, if_true]
    | succ j =>
      have hne : (natKey start == natKey (start + (j + 1))) = false := by
        have : natKey start ≠ natKey (start + (j + 1)) := by
          intro hc
          have := natKey_inj start (start + (j + 1)) hc
          omega
        simp [this]
      simp only [findIdxFrom, hne, Bool.false_eq_true, if_false]
      have := ih (start + 1) j (by omega)
      rw [show start + 1 + j = start + (j + 1) by omega] at this
      exact this

theorem arrIdx_natKey : ∀ (i len : Nat), i ≤ len → arrIdx (natKey i) len = some i := by
  intro i len h
  have := findIdxFrom_natKey (len + 1) 0 i (by omega)
  simpa [arrIdx] using this

theorem arrFields_lookup_nondigit : ∀ (xs : List JsVal) (off : Nat) (k : String),
    (∀ d t, d < 10 → k.data ≠ digitChar d :: t) →
    lookupField (arrFields off xs) k = none := by
  intro xs
  induction xs with
  | nil => intro off k _; rfl
  | cons x rest ih =>
    intro off k hk
    have hne : (natKey off == k) = false := by
      have : natKey off ≠ k := by
        intro hc
        obtain ⟨d, t, hd, ht⟩ := natKeyAux_head (off + 1) off (by omega)
        have hdat : k.data = digitChar d :: t := by
          rw [← hc]
          simpa [natKey] using ht
        exact hk d t hd hdat
      simp [this]
    simp only [arrFields, lookupField, hne, Bool.false_eq_true, if_false]
    exact ih (off + 1) k hk

theorem data_ne_digit_of_head : ∀ (c : Char) (r : List Char),
    (∀ d, d < 10 → digitChar d ≠ c) →
    ∀ d t, d < 10 → (c :: r : List Char) ≠ digitChar d :: t := by
  intro c r hc d t hd heq
  exact hc d hd ((List.cons.inj heq).1).symm

theorem getPropD_arr_nodeType : ∀ xs : List JsVal, getPropD (.arr xs) "nodeType" = .undef := by
  intro xs
  have h := arrFields_lookup_nondigit xs 0 "nodeType" (by
    intro d t hd
    exact data_ne_digit_of_head 'n' "odeType".data
      (by intro d2 hd2 hc; interval_cases d2 <;> exact absurd hc (by decide)) d t hd)
  simp [getPropD, h]

theorem cloneList_id : ∀ (xs : List JsVal) (rec : JsVal → Option (Except String JsVal)),
    (∀ x ∈ xs, rec x = some (.ok x)) → cloneList rec xs = some (.ok xs) := by
  intro xs
  induction xs with
  | nil => intro rec _; rfl
  | cons x rest ih =>
    intro rec h
    simp only [cloneList, h x (List.mem_cons_self _ _),
      ih rec (fun y hy => h y (List.mem_cons_of_mem _ hy))]

theorem mixinGo_obj_build : ∀ (rest pref : Fields)
    (copyFunc : JsVal → Option (Except String JsVal)),
    (∀ p ∈ rest, hasField pref p.1 = false) →
    (∀ p ∈ rest, copyFunc p.2 = some (.ok p.2)) →
    keysFresh rest = true →
    mixinGo copyFunc (.obj pref) rest = some (.ok (.obj (pref ++ rest))) := by
  intro rest
  induction rest with
  | nil => intro pref copyFunc _ _ _; simp [mixinGo]
  | cons p rest2 ih =>
    intro pref copyFunc hnew hcopy hfresh
    obtain ⟨k, s⟩ := p
    have hk : hasField pref k = false := hnew (k, s) (List.mem_cons_self _ _)
    have hrest2fresh : keysFresh rest2 = true := by
      simp only [keysFresh, Bool.and_eq_true] at hfresh
      exact hfresh.2
    have hknotrest : hasField rest2 k = false := by
      cases hx : hasField rest2 k with
      | false => rfl
      | true => simp only [keysFresh, hx] at hfresh; simp at hfresh
    simp only [mixinGo, hasProp, hk]
    rw [if_pos (by simp)]
    rw [hcopy (k, s) (List.mem_cons_self _ _)]
    dsimp only [setProp]
    rw [setField_of_not_has pref k s hk]
    have hnew2 : ∀ q ∈ rest2, hasField (pref ++ [(k, s)]) q.1 = false := by
      intro q hq
      rw [hasField_append]
      have h1 := hnew q (List.mem_cons_of_mem _ hq)
      have hqne : q.1 ≠ k := by
        intro hc
        have := mem_hasField rest2 q hq
        rw [hc] at this
        rw [this] at hknotrest
        exact Bool.noConfusion hknotrest
      have hb : (k == q.1) = false := by
        simp only [beq_eq_false_iff_ne, ne_eq]
        intro hc
        exact hqne hc.symm
      have h2 : hasField [(k, s)] q.1 = false := by simp [hasField, lookupField, hb]
      rw [h1, h2]
      rfl
    have hcopy2 : ∀ q ∈ rest2, copyFunc q.2 = some (.ok q.2) :=
      fun q hq => hcopy q (List.mem_cons_of_mem _ hq)
    rw [ih (pref ++ [(k, s)]) copyFunc hnew2 hcopy2 hrest2fresh]
    simp

theorem mixinGo_arr_id : ∀ (entries : Fields) (xs : List JsVal)
    (copyFunc : JsVal → Option (Except String JsVal)),
    (∀ p ∈ entries, ∃ i, p.1 = natKey i ∧ xs.get? i = some p.2) →
    (∀ p ∈ entries, copyFunc p.2 = some (.ok p.2)) →
    mixinGo copyFunc (.arr xs) entries = some (.ok (.arr xs)) := by
  intro entries
  induction entries with
  | nil => intro xs copyFunc _ _; simp [mixinGo]
  | cons p rest ih =>
    intro xs copyFunc hidx hcopy
    obtain ⟨k, s⟩ := p
    obtain ⟨i, hk, hgi⟩ := hidx (k, s) (List.mem_cons_self _ _)
    dsimp only at hk hgi
    subst hk
    have hilen : i < xs.length := by
      by_contra hge
      push_neg at hge
      rw [List.get?_eq_none.mpr hge] at hgi
      exact Option.noConfusion hgi
    have hlook : lookupField (arrFields 0 xs) (natKey i) = some s := by
      have h0 := lookupField_arrFields xs 0 i
      rw [Nat.zero_add] at h0
      rw [h0, hgi]
    have hhas : hasField (arrFields 0 xs) (natKey i) = true := by simp [hasField, hlook]
    have hget : getPropD (.arr xs) (natKey i) = s := by simp [getPropD, hlook]
    have htail1 : ∀ q ∈ rest, ∃ j, q.1 = natKey j ∧ xs.get? j = some q.2 :=
      fun q hq => hidx q (List.mem_cons_of_mem _ hq)
    have htail2 : ∀ q ∈ rest, copyFunc q.2 = some (.ok q.2) :=
      fun q hq => hcopy q (List.mem_cons_of_mem _ hq)
    simp only [mixinGo, hasProp, hhas, Bool.true_or, hget]
    cases hse : jsStrictEq s s with
    | true =>
      rw [if_neg (by simp [hse])]
      exact ih xs copyFunc htail1 htail2
    | false =>
      rw [if_pos (by simp [hse])]
      rw [hcopy (natKey i, s) (List.mem_cons_self _ _)]
      dsimp only [setProp]
      have hnl : (natKey i == "length") = false := by
        simp only [beq_eq_false_iff_ne, ne_eq]
        exact natKey_ne_length i
      simp only [hnl, Bool.false_eq_true, if_false]
      rw [arrIdx_natKey i xs.length (by omega)]
      have hne2 : (i == xs.length) = false := by simp; omega
      simp only [hne2, Bool.false_eq_true, if_false]
      rw [set_get_self xs i s hgi]
      exact ih xs copyFunc htail1 htail2

theorem cloneList_isSome : ∀ (xs : List JsVal) (rec : JsVal → Option (Except String JsVal)),
    (∀ x ∈ xs, (rec x).isSome = true) → (cloneList rec xs).isSome = true := by
  intro xs
  induction xs with
  | nil => intro rec _; rfl
  | cons x rest ih =>
    intro rec h
    have hx := h x (List.mem_cons_self _ _)
    have hrest := ih rec (fun y hy => h y (List.mem_cons_of_mem _ hy))
    simp only [cloneList]
    cases hrx : rec x with
    | none => rw [hrx] at hx; simp at hx
    | some e =>
      cases e with
      | error e2 => rfl
      | ok y =>
        cases hcl : cloneList rec rest with
        | none => rw [hcl] at hrest; simp at hrest
        | some e3 => cases e3 <;> rfl

theorem mixinGo_isSome : ∀ (l : Fields) (copyFunc : JsVal → Option (Except String JsVal))
    (dest : JsVal), (∀ p ∈ l, (copyFunc p.2).isSome = true) →
    (mixinGo copyFunc dest l).isSome = true := by
  intro l
  induction l with
  | nil => intro copyFunc dest _; rfl
  | cons p rest ih =>
    intro copyFunc dest h
    obtain ⟨name, s⟩ := p
    have hs := h (name, s) (List.mem_cons_self _ _)
    have hrest : ∀ q ∈ rest, (copyFunc q.2).isSome = true :=
      fun q hq => h q (List.mem_cons_of_mem _ hq)
    simp only [mixinGo]
    cases hasProp dest name with
    | error e => rfl
    | ok hasN =>
      dsimp only
      by_cases hc : (!hasN || !(jsStrictEq (getPropD dest name) s)) = true
      · rw [if_pos hc]
        cases hcf : copyFunc s with
        | none => rw [hcf] at hs; simp at hs
        | some e =>
          cases e with
          | error e2 => rfl
          | ok v =>
            dsimp only
            cases setProp dest name v with
            | error e3 => rfl
            | ok d2 => exact ih copyFunc d2 hrest
      · rw [if_neg hc]
        exact ih copyFunc dest hrest

theorem cloneF_isSome : ∀ (n : Nat) (v : JsVal), jsSize v ≤ n → (cloneF n v).isSome = true := by
  intro n
  induction n with
  | zero => intro v h; have := jsSize_pos v; omega
  | succ n1 ih =>
    intro v hsz
    cases v with
    | undef => rfl
    | null => rfl
    | bool b => rfl
    | num m => rfl
    | str s => rfl
    | func f => rfl
    | date t =>
      simp only [cloneF]
      by_cases hg : (truthy (getPropD (.date t) "nodeType") && hasPropB (.date t) "cloneNode") = true
      · rw [if_pos hg]
        cases getPropD (.date t) "cloneNode" <;> rfl
      · rw [if_neg hg]
        rfl
    | regexp s =>
      simp only [cloneF]
      by_cases hg : (truthy (getPropD (.regexp s) "nodeType") &&
          hasPropB (.regexp s) "cloneNode") = true
      · rw [if_pos hg]
        cases getPropD (.regexp s) "cloneNode" <;> rfl
      · rw [if_neg hg]
        rfl
    | arr xs =>
      have hszm : ∀ x ∈ xs, jsSize x ≤ n1 := by
        intro x hx
        have h1 := elemsSize_mem xs x hx
        simp only [jsSize] at hsz
        omega
      simp only [cloneF]
      by_cases hg : (truthy (getPropD (.arr xs) "nodeType") && hasPropB (.arr xs) "cloneNode") = true
      · rw [if_pos hg]
        cases getPropD (.arr xs) "cloneNode" <;> rfl
      · rw [if_neg hg]
        have hcl := cloneList_isSome xs (cloneF n1) (fun x hx => ih x (hszm x hx))
        cases hclv : cloneList (cloneF n1) xs with
        | none => rw [hclv] at hcl; simp at hcl
        | some e =>
          cases e with
          | error e2 => rfl
          | ok ys =>
            dsimp only
            unfold mixin
            apply mixinGo_isSome
            intro p hp
            obtain ⟨j, _, hj⟩ := mem_arrFields xs 0 p (by simpa [ownEnumerable] using hp)
            exact ih p.2 (hszm p.2 (List.get?_mem hj))
    | obj fs =>
      have hszm : ∀ p ∈ fs, jsSize p.2 ≤ n1 := by
        intro p hp
        have h1 := fieldsSize_mem fs p hp
        simp only [jsSize] at hsz
        omega
      simp only [cloneF]
      by_cases hg : (truthy (getPropD (.obj fs) "nodeType") && hasPropB (.obj fs) "cloneNode") = true
      · rw [if_pos hg]
        cases getPropD (.obj fs) "cloneNode" <;> rfl
      · rw [if_neg hg]
        by_cases hgc : truthy (getPropD (.obj fs) "constructor") = true
        · rw [if_pos hgc]
          rfl
        · rw [if_neg hgc]
          unfold mixin
          apply mixinGo_isSome
          intro p hp
          exact ih p.2 (hszm p (by simpa [ownEnumerable] using hp))

theorem cloneF_plain : ∀ (n : Nat) (v : JsVal), jsSize v ≤ n → plainDataF n v = true →
    cloneF n v = some (.ok v) := by
  intro n
  induction n with
  | zero => intro v h _; have := jsSize_pos v; omega
  | succ n1 ih =>
    intro v hsz hp
    cases v with
    | undef => rfl
    | null => rfl
    | bool b => rfl
    | num m => rfl
    | str s => rfl
    | func f => rfl
    | date t => rfl
    | regexp s => rfl
    | arr xs =>
      have hmem : ∀ x ∈ xs, plainDataF n1 x = true := by
        simp only [plainDataF, List.all_eq_true] at hp
        exact hp
      have hszm : ∀ x ∈ xs, jsSize x ≤ n1 := by
        intro x hx
        have h1 := elemsSize_mem xs x hx
        simp only [jsSize] at hsz
        omega
      have hrec : ∀ x ∈ xs, cloneF n1 x = some (.ok x) :=
        fun x hx => ih x (hszm x hx) (hmem x hx)
      have hnT := getPropD_arr_nodeType xs
      simp only [cloneF, hnT]
      rw [if_neg (by simp [truthy])]
      rw [cloneList_id xs (cloneF n1) hrec]
      dsimp only
      unfold mixin
      apply mixinGo_arr_id
      · intro p hp2
        obtain ⟨j, hj1, hj2⟩ := mem_arrFields xs 0 p (by simpa [ownEnumerable] using hp2)
        exact ⟨j, by simpa using hj1, hj2⟩
      · intro p hp2
        obtain ⟨j, _, hj2⟩ := mem_arrFields xs 0 p (by simpa [ownEnumerable] using hp2)
        exact hrec p.2 (List.get?_mem hj2)
    | obj fs =>
      simp only [plainDataF, Bool.and_eq_true, List.all_eq_true] at hp
      obtain ⟨⟨⟨hfresh, hg1⟩, hg2⟩, hall⟩ := hp
      have hg1f : (truthy (getPropD (.obj fs) "nodeType") && hasPropB (.obj fs) "cloneNode") =
          false := by
        cases hx : (truthy (getPropD (.obj fs) "nodeType") && hasPropB (.obj fs) "cloneNode") with
        | false => rfl
        | true => rw [hx] at hg1; simp at hg1
      have hg2f : truthy (getPropD (.obj fs) "constructor") = false := by
        cases hx : truthy (getPropD (.obj fs) "constructor") with
        | false => rfl
        | true => rw [hx] at hg2; simp at hg2
      have hszm : ∀ p ∈ fs, jsSize p.2 ≤ n1 := by
        intro p hp2
        have h1 := fieldsSize_mem fs p hp2
        simp only [jsSize] at hsz
        omega
      simp only [cloneF, hg1f, Bool.false_eq_true, if_false, hg2f]
      unfold mixin
      have := mixinGo_obj_build fs [] (cloneF n1)
        (fun p _ => rfl)
        (fun p hp2 => ih p.2 (hszm p hp2) (hall p hp2))
        hfresh
      simpa [ownEnumerable] using this

/-- C4 (amended): for every non-cyclic plain-data value — primitives,
functions, dates, regexps, dense arrays and plain objects with distinct
keys, no truthy nodeType property alongside a cloneNode member and no own
truthy constructor property — clone dispatches on type exactly as the
claim lists and returns a value structurally equal to the input.  Objects
carrying a truthy nodeType with a cloneNode member take the DOM branch
instead (see the counterexample), and an own truthy constructor property
routes through new src.constructor(), outside a value model.  Freshness
of the copy (no shared mutable sub-object) concerns heap identity, which
a value semantics cannot state. -/
theorem claimC4_clone_structural (v : JsVal) (h : plainData v = true) : clone v = .ok v := by
  have hrun := cloneF_plain (jsSize v) v (le_refl _) h
  unfold clone
  rw [hrun]

theorem claimC4_witness :
    plainData (.obj [("a", .num 1), ("b", .arr [.num 2, .str "s"])]) = true ∧
    clone (.obj [("a", .num 1), ("b", .arr [.num 2, .str "s"])]) =
      .ok (.obj [("a", .num 1), ("b", .arr [.num 2, .str "s"])]) := by
  have hp : plainData (.obj [("a", .num 1), ("b", .arr [.num 2, .str "s"])]) = true := by decide
  exact ⟨hp, claimC4_clone_structural _ hp⟩

/-- C4 counterexample: a plain (non-cyclic) object with a truthy nodeType
property and a cloneNode member takes the DOM branch of clone: the result
is whatever cloneNode returns, the number 42 here, which is not
structurally equal to the input object, refuting the claim that every
other non-cyclic object is cloned into a fresh structurally equal
object. -/
theorem claimC4_counterexample :
    clone (.obj [("nodeType", .num 1), ("cloneNode", .func (fun _ => .num 42))]) =
      .ok (.num 42) ∧
    (JsVal.num 42 ≠ .obj [("nodeType", .num 1), ("cloneNode", .func (fun _ => .num 42))]) := by
  constructor
  · unfold clone
    rw [show jsSize (.obj [("nodeType", .num 1),
      ("cloneNode", .func (fun _ => .num 42))]) = 5 by simp [jsSize, fieldsSize]]
    rfl
  · intro h
    exact JsVal.noConfusion h

/-- C5: clone terminates on every value of the model: the value graphs of
the embedding are finite trees, the acyclic precondition of the source,
and the fuel jsSize v, the model counterpart of the recursion depth,
always suffices — cloneF answers some result rather than the out-of-fuel
none, and clone returns exactly that result.  Cyclic structures, the sole
source of unbounded recursion in the source, do not exist in this
model. -/
theorem claimC5_clone_terminates : ∀ v : JsVal, ∃ r, cloneF (jsSize v) v = some r ∧ clone v = r := by
  intro v
  have h := cloneF_isSome (jsSize v) v (le_refl _)
  obtain ⟨r, hr⟩ := Option.isSome_iff_exists.mp h
  refine ⟨r, hr, ?_⟩
  unfold clone
  rw [hr]

/-- C10: fetchGithubVersions returns exactly the non-prerelease releases
whose tag_name starts with @gmod/jbrowse-web whenever at least one such
release exists; otherwise it falls back to the complete unfiltered
listing, prereleases and releases outside the jbrowse-web family
included, so tag resolution and listVersions can then surface foreign
releases. -/
theorem claimC10_fetchGithubVersions_filter : ∀ rs : List GithubRelease,
    fetchGithubVersions rs =
      (if rs.filter (fun r => strStarts r.tag_name "@gmod/jbrowse-web" &&
          r.prerelease == false) = [] then rs
       else rs.filter (fun r => strStarts r.tag_name "@gmod/jbrowse-web" &&
          r.prerelease == false)) := by
  intro rs
  unfold fetchGithubVersions
  dsimp only
  rw [List.filter_filter]
  by_cases h : rs.filter (fun r => strStarts r.tag_name "@gmod/jbrowse-web" &&
      r.prerelease == false) = []
  · rw [if_pos h]
    have hswap : rs.filter (fun r => (r.prerelease == false) &&
        strStarts r.tag_name "@gmod/jbrowse-web") = [] := by
      rw [show (fun (r : GithubRelease) => (r.prerelease == false) &&
          strStarts r.tag_name "@gmod/jbrowse-web") = (fun r =>
          strStarts r.tag_name "@gmod/jbrowse-web" && r.prerelease == false) from
        funext (fun r => Bool.and_comm _ _)]
      exact h
    rw [hswap]
    simp
  · rw [if_neg h]
    have hswap : rs.filter (fun r => (r.prerelease == false) &&
        strStarts r.tag_name "@gmod/jbrowse-web") = rs.filter (fun r =>
        strStarts r.tag_name "@gmod/jbrowse-web" && r.prerelease == false) := by
      rw [show (fun (r : GithubRelease) => (r.prerelease == false) &&
          strStarts r.tag_name "@gmod/jbrowse-web") = (fun r =>
          strStarts r.tag_name "@gmod/jbrowse-web" && r.prerelease == false) from
        funext (fun r => Bool.and_comm _ _)]
    rw [hswap]
    have hlen : ((rs.filter (fun r => strStarts r.tag_name "@gmod/jbrowse-web" &&
        r.prerelease == false)).length == 0) = false := by
      cases hx : rs.filter (fun r => strStarts r.tag_name "@gmod/jbrowse-web" &&
          r.prerelease == false) with
      | nil => exact absurd hx h
      | cons a l => rfl
    rw [hlen]
    simp

/-- C7: when a release tag is supplied, getTagOrLatest answers the
this.error exit code 40 if no release of the fetched listing has exactly
that tag_name; when a matching release exists — or, with no tag, for the
first listed release — the resolved download URL is that release's first
asset (the declared asset type is a one-element tuple, so the first asset
exists on real listings). -/
theorem claimC7_getTagOrLatest_resolution : ∀ (t : String) (rs : List GithubRelease),
    ((∀ r ∈ fetchGithubVersions rs, r.tag_name ≠ t) →
      getTagOrLatest (some t) rs = .error (.exitCode 40)) ∧
    (∀ r u, (fetchGithubVersions rs).find?
        (fun (version : GithubRelease) => version.tag_name == t) = some r →
      r.assets.head? = some u → getTagOrLatest (some t) rs = .ok u) ∧
    (∀ r u, (fetchGithubVersions rs).head? = some r → r.assets.head? = some u →
      getTagOrLatest none rs = .ok u) := by
  intro t rs
  refine ⟨?_, ?_, ?_⟩
  · intro hnone
    have hfind : (fetchGithubVersions rs).find?
        (fun (version : GithubRelease) => version.tag_name == t) = none := by
      rw [List.find?_eq_none]
      intro r hr
      simp only [beq_iff_eq]
      exact hnone r hr
    unfold getTagOrLatest
    dsimp only
    rw [hfind]
  · intro r u hfind hhead
    unfold getTagOrLatest
    dsimp only
    rw [hfind]
    dsimp only
    rw [hhead]
  · intro r u hhead hasset
    unfold getTagOrLatest
    dsimp only
    rw [hhead]
    dsimp only
    rw [hasset]

theorem claimC7_witness :
    (getTagOrLatest (some "@gmod/jbrowse-web@9.9.9")
      [⟨"@gmod/jbrowse-web@1.0.0", false, ["http://x/a.zip"]⟩] = .error (.exitCode 40)) ∧
    (getTagOrLatest none
      [⟨"@gmod/jbrowse-web@1.0.0", false, ["http://x/a.zip"]⟩] = .ok "http://x/a.zip") := by
  constructor
  · exact (claimC7_getTagOrLatest_resolution "@gmod/jbrowse-web@9.9.9"
      [⟨"@gmod/jbrowse-web@1.0.0", false, ["http://x/a.zip"]⟩]).1 (by decide)
  · exact (claimC7_getTagOrLatest_resolution "x"
      [⟨"@gmod/jbrowse-web@1.0.0", false, ["http://x/a.zip"]⟩]).2.2
      ⟨"@gmod/jbrowse-web@1.0.0", false, ["http://x/a.zip"]⟩ "http://x/a.zip"
      (by decide) (by decide)

/-- C6: when create runs without the force flag (and is not merely
listing versions), once mkdir has succeeded the path validation exits
with code 20 if the target directory cannot be read and with code 10 if
it contains at least one entry; in either failure case the release
listing is never fetched, no download is requested, and the unzip
pipeline — the only stage that writes into the directory — is never
reached, so the existing contents are untouched. -/
theorem claimC6_checkPath_exits : ∀ (fl : CreateFlags) (env : CreateEnv),
    fl.force = false → fl.listVersions = false → env.mkdirOk = true →
    (env.readdirResult = none → run fl env = ⟨.exited 20, false, none⟩) ∧
    (∀ files, env.readdirResult = some files → files.length > 0 →
      run fl env = ⟨.exited 10, false, none⟩) := by
  intro fl env hf hl hm
  constructor
  · intro hrd
    unfold run
    rw [hl, hm, hf, hrd]
    rfl
  · intro files hrd hlen
    unfold run
    rw [hl, hm, hf, hrd]
    simp only [checkPath]
    rw [if_pos hlen]
    rfl

theorem claimC6_witness :
    run ⟨false, false, none, none⟩
      { mkdirOk := true, readdirResult := none, releasesResp := none,
        download := fun _ => none } = ⟨.exited 20, false, none⟩ ∧
    run ⟨false, false, none, none⟩
      { mkdirOk := true, readdirResult := some ["index.html"], releasesResp := none,
        download := fun _ => none } = ⟨.exited 10, false, none⟩ := by
  constructor
  · exact (claimC6_checkPath_exits ⟨false, false, none, none⟩
      { mkdirOk := true, readdirResult := none, releasesResp := none,
        download := fun _ => none } rfl rfl rfl).1 rfl
  · exact (claimC6_checkPath_exits ⟨false, false, none, none⟩
      { mkdirOk := true, readdirResult := some ["index.html"], releasesResp := none,
        download := fun _ => none } rfl rfl rfl).2 ["index.html"] rfl (by decide)

/-- C8 (amended): the modelled failure exits of run are per category: a
non-ok download response is this.error with exit 50 on the direct-url
path and on the tag-resolved path alike; the content-type check applies
only when a direct URL was supplied — a response to a truthy url flag
whose content type is neither application/zip nor application/octet-stream
is this.error with the CLI default exit code 2 — while a tag-resolved
download is extracted without any content-type check (see the
counterexample). -/
theorem claimC8_failure_exit_codes : ∀ (env : CreateEnv) (u : String) (resp : FetchResp),
    u ≠ "" → env.mkdirOk = true → env.download u = some resp →
    ((resp.ok = false →
      run ⟨true, false, some u, none⟩ env = ⟨.exited 50, false, some u⟩) ∧
    (resp.ok = true →
      resp.contentType ≠ some "application/zip" →
      resp.contentType ≠ some "application/octet-stream" →
      run ⟨true, false, some u, none⟩ env = ⟨.exited 2, false, some u⟩) ∧
    (∀ t rs, env.releasesResp = some rs →
      getTagOrLatest (some t) rs = .ok u → resp.ok = false →
      run ⟨true, false, none, some t⟩ env = ⟨.exited 50, true, some u⟩)) := by
  intro env u resp hne hm hdl
  have hut : urlTruthy (some u) = true := by
    simp only [urlTruthy, Bool.not_eq_true', beq_eq_false_iff_ne, ne_eq]
    exact hne
  have hdl2 : env.download ((some u).getD "") = some resp := hdl
  have hstep : ∀ lf : Bool, run ⟨true, false, some u, none⟩ env =
      downloadStep env (some u) false ((some u).getD "") := by
    intro lf
    unfold run
    rw [hm]
    dsimp only
    rw [hut]
    rfl
  refine ⟨?_, ?_, ?_⟩
  · intro hok
    rw [hstep true]
    unfold downloadStep
    rw [hdl2]
    dsimp only
    rw [hok]
    rfl
  · intro hok hct1 hct2
    have hb1 : (resp.contentType == some "application/zip") = false := by
      simp only [beq_eq_false_iff_ne, ne_eq]
      exact hct1
    have hb2 : (resp.contentType == some "application/octet-stream") = false := by
      simp only [beq_eq_false_iff_ne, ne_eq]
      exact hct2
    rw [hstep true]
    unfold downloadStep
    rw [hdl2]
    dsimp only
    rw [hok, hut, hb1, hb2]
    rfl
  · intro t rs hresp htag hok
    have hstep2 : run ⟨true, false, none, some t⟩ env =
        downloadStep env none true u := by
      unfold run
      rw [hm]
      dsimp only
      rw [hresp]
      dsimp only
      rw [htag]
      rfl
    rw [hstep2]
    unfold downloadStep
    rw [hdl]
    dsimp only
    rw [hok]
    rfl

theorem claimC8_witness :
    run ⟨true, false, some "http://x/a.zip", none⟩
      { mkdirOk := true, readdirResult := some [], releasesResp := none,
        download := fun _ => some ⟨false, none⟩ } =
      ⟨.exited 50, false, some "http://x/a.zip"⟩ ∧
    run ⟨true, false, some "http://x/a.zip", none⟩
      { mkdirOk := true, readdirResult := some [], releasesResp := none,
        download := fun _ => some ⟨true, some "text/html"⟩ } =
      ⟨.exited 2, false, some "http://x/a.zip"⟩ := by
  constructor
  · exact ((claimC8_failure_exit_codes
      { mkdirOk := true, readdirResult := some [], releasesResp := none,
        download := fun _ => some ⟨false, none⟩ } "http://x/a.zip" ⟨false, none⟩
      (by decide) rfl rfl).1) rfl
  · exact ((claimC8_failure_exit_codes
      { mkdirOk := true, readdirResult := some [], releasesResp := none,
        download := fun _ => some ⟨true, some "text/html"⟩ } "http://x/a.zip"
      ⟨true, some "text/html"⟩ (by decide) rfl rfl).2.1) rfl (by decide) (by decide)

/-- C8 counterexample: on the tag-resolved path (no url flag) a
downloaded response whose content type is text/html — neither
application/zip nor application/octet-stream — does not terminate the
command: run reaches the unzip pipeline, refuting the claim that every
wrong-content-type download exits with an error code. -/
theorem claimC8_counterexample :
    run ⟨true, false, none, some "@gmod/jbrowse-web@1"⟩
      { mkdirOk := true, readdirResult := some [],
        releasesResp := some [⟨"@gmod/jbrowse-web@1", false, ["http://x/a.zip"]⟩],
        download := fun _ => some ⟨true, some "text/html"⟩ } =
      ⟨.unzipStarted "http://x/a.zip", true, some "http://x/a.zip"⟩ := by decide
